import Mathlib

/-!
Verification of the MerkleTree repository (Rust, two source files:
`src/merkel/merkel.rs` and `src/main.rs`) against its specification.

The Rust code is shallowly embedded over `List Nat`:

* `Data = Vec<u8>` and `Hash = Vec<u8>` become `List Nat` (bytes; byte values
  are reduced mod 256 where they enter the hash primitive, matching `u8`).
* The SHA-256 primitive used through the `sha2` crate is implemented in full
  (constants, padding, message schedule, compression), with 32-bit words as
  `Nat` masked by `0xffffffff` at every arithmetic step.
* `MerkleTree` (struct with `hash`, `left: Option<Box<..>>`,
  `right: Option<Box<..>>`) becomes an inductive with two `Option` children.
* Code that can panic is embedded fallibly: `construct`'s final
  `nodes.remove(0)` (panics on an empty vector) makes `construct` return
  `Option MerkleTree` with `none` as the panic outcome; the
  `self.right.as_ref().unwrap()` / `self.left.as_ref().unwrap()` calls in
  `find_proof` make it return `Except Unit _` with `.error ()` as the panic
  outcome; `merkle`'s trailing `hash_list[0]` turns its result into
  `Option Hash` via `head?`.
* The two `while` loops (in `construct` and in `merkle`) are embedded as
  fuel-indexed loops, with the input length as fuel; each iteration on a list
  of length above one strictly shrinks the list, and `n < 2 ^ n`, so this
  fuel is sufficient (`constructLoop_singleton`, `merkleLoop_singleton`).
-/

/-! ## SHA-256 primitive (the `sha2` crate's `Sha256`, as used by both files) -/

/-- Mask for 32-bit words. -/
def M32 : Nat := 0xffffffff

/-- Rotate a 32-bit word right by `k`. -/
def rotr (k n : Nat) : Nat := ((n >>> k) ||| (n <<< (32 - k))) &&& M32

/-- Choice function of the SHA-256 round. -/
def sha_ch (x y z : Nat) : Nat := (x &&& y) ^^^ ((x ^^^ M32) &&& z)

/-- Majority function of the SHA-256 round. -/
def sha_maj (x y z : Nat) : Nat := (x &&& y) ^^^ (x &&& z) ^^^ (y &&& z)

/-- Big sigma-0 of SHA-256. -/
def bigSigma0 (x : Nat) : Nat := rotr 2 x ^^^ rotr 13 x ^^^ rotr 22 x

/-- Big sigma-1 of SHA-256. -/
def bigSigma1 (x : Nat) : Nat := rotr 6 x ^^^ rotr 11 x ^^^ rotr 25 x

/-- Small sigma-0 of SHA-256 (message schedule). -/
def smallSigma0 (x : Nat) : Nat := rotr 7 x ^^^ rotr 18 x ^^^ (x >>> 3)

/-- Small sigma-1 of SHA-256 (message schedule). -/
def smallSigma1 (x : Nat) : Nat := rotr 17 x ^^^ rotr 19 x ^^^ (x >>> 10)

/-- Round constants of SHA-256. -/
def shaK : Array Nat := #[
  1116352408, 1899447441, 3049323471, 3921009573, 961987163,
  1508970993, 2453635748, 2870763221, 3624381080, 310598401,
  607225278, 1426881987, 1925078388, 2162078206, 2614888103,
  3248222580, 3835390401, 4022224774, 264347078, 604807628,
  770255983, 1249150122, 1555081692, 1996064986, 2554220882,
  2821834349, 2952996808, 3210313671, 3336571891, 3584528711,
  113926993, 338241895, 666307205, 773529912, 1294757372,
  1396182291, 1695183700, 1986661051, 2177026350, 2456956037,
  2730485921, 2820302411, 3259730800, 3345764771, 3516065817,
  3600352804, 4094571909, 275423344, 430227734, 506948616,
  659060556, 883997877, 958139571, 1322822218, 1537002063,
  1747873779, 1955562222, 2024104815, 2227730452, 2361852424,
  2428436474, 2756734187, 3204031479, 3329325298]

/-- Extend a 16-word message block to the 64-word SHA-256 schedule. -/
def extendW : Nat → Array Nat → Array Nat
  | 0, ws => ws
  | n + 1, ws =>
    extendW n (ws.push ((smallSigma1 (ws.getD (ws.size - 2) 0) + ws.getD (ws.size - 7) 0 +
      smallSigma0 (ws.getD (ws.size - 15) 0) + ws.getD (ws.size - 16) 0) &&& M32))

/-- Working state of the SHA-256 compression function: the eight 32-bit words. -/
abbrev ShaState : Type := Nat × Nat × Nat × Nat × Nat × Nat × Nat × Nat

/-- The 64 rounds of the SHA-256 compression function. -/
def roundLoop : Nat → Nat → Array Nat → ShaState → ShaState
  | 0, _, _, st => st
  | n + 1, i, ws, (a, b, c, d, e, f, g, h) =>
    roundLoop n (i + 1) ws
      (((h + bigSigma1 e + sha_ch e f g + shaK.getD i 0 + ws.getD i 0) +
          ((bigSigma0 a + sha_maj a b c) &&& M32)) &&& M32,
        a, b, c,
        (d + ((h + bigSigma1 e + sha_ch e f g + shaK.getD i 0 + ws.getD i 0) &&& M32)) &&& M32,
        e, f, g)

/-- Compress one 16-word block into the running state. -/
def compressChunk (ws16 : List Nat) (st : ShaState) : ShaState :=
  match st, roundLoop 64 0 (extendW 48 (Array.mk ws16)) st with
  | (h0, h1, h2, h3, h4, h5, h6, h7), (a, b, c, d, e, f, g, h) =>
    ((h0 + a) &&& M32, (h1 + b) &&& M32, (h2 + c) &&& M32, (h3 + d) &&& M32,
     (h4 + e) &&& M32, (h5 + f) &&& M32, (h6 + g) &&& M32, (h7 + h) &&& M32)

/-- Assemble bytes into big-endian 32-bit words (each byte reduced mod 256, as `u8`). -/
def bytesToWords : List Nat → List Nat
  | b0 :: b1 :: b2 :: b3 :: rest =>
    (((b0 % 256) <<< 24) ||| ((b1 % 256) <<< 16) ||| ((b2 % 256) <<< 8) ||| (b3 % 256)) ::
      bytesToWords rest
  | _ => []

/-- Run the compression function over every 16-word block of the padded message. -/
def compressWords : List Nat → ShaState → ShaState
  | w0 :: w1 :: w2 :: w3 :: w4 :: w5 :: w6 :: w7 ::
    w8 :: w9 :: w10 :: w11 :: w12 :: w13 :: w14 :: w15 :: rest, st =>
    compressWords rest
      (compressChunk [w0, w1, w2, w3, w4, w5, w6, w7, w8, w9, w10, w11, w12, w13, w14, w15] st)
  | _, st => st

/-- Big-endian 8-byte encoding of the message bit length. -/
def lenBytes (n : Nat) : List Nat :=
  [(n >>> 56) &&& 255, (n >>> 48) &&& 255, (n >>> 40) &&& 255, (n >>> 32) &&& 255,
   (n >>> 24) &&& 255, (n >>> 16) &&& 255, (n >>> 8) &&& 255, n &&& 255]

/-- Big-endian bytes of a 32-bit word. -/
def wordBytes (w : Nat) : List Nat :=
  [(w >>> 24) &&& 255, (w >>> 16) &&& 255, (w >>> 8) &&& 255, w &&& 255]

/-- Full SHA-256 of a byte sequence: pad to a multiple of 64 bytes (`0x80`, zeros,
64-bit big-endian bit length), compress every block starting from the standard
initial state, and serialize the final state big-endian. Validated against the
digests recorded in the repository's own test comments (for example the digest
of the single byte `0x00` in `test_constructions`). -/
def sha256 (data : List Nat) : List Nat :=
  match compressWords
      (bytesToWords
        (data ++ 0x80 :: List.replicate ((119 - data.length % 64) % 64) 0 ++
          lenBytes (data.length * 8)))
      (1779033703, 3144134277, 1013904242, 2773480762,
       1359893119, 2600822924, 528734635, 1541459225) with
  | (a, b, c, d, e, f, g, h) =>
    wordBytes a ++ wordBytes b ++ wordBytes c ++ wordBytes d ++
    wordBytes e ++ wordBytes f ++ wordBytes g ++ wordBytes h

/-! ## `src/merkel/merkel.rs` -/

/-- Rust `pub type Data = Vec<u8>`. -/
abbrev Data : Type := List Nat

/-- Rust `pub type Hash = Vec<u8>`. -/
abbrev Hash : Type := List Nat

/-- Rust `fn hash_data(data: &Data) -> Hash` (merkel.rs lines 123-125):
a single SHA-256 digest of the data. -/
def hash_data (data : Data) : Hash := sha256 data

/-- Rust `fn hash_concat(h1: &Hash, h2: &Hash) -> Hash` (merkel.rs lines 127-130):
the digest of the byte concatenation of the two hashes. -/
def hash_concat (h1 h2 : Hash) : Hash := hash_data (h1 ++ h2)

/-- Rust `enum HashDirection` (merkel.rs lines 16-20): which side to put the
sibling hash on when concatenating during proof verification. -/
inductive HashDirection where
  | Left
  | Right
deriving DecidableEq, Repr

/-- Rust `struct MerkleTree` (merkel.rs lines 8-13): a node hash plus optional
boxed left and right children. -/
inductive MerkleTree where
  | mk (hash : Hash) (left : Option MerkleTree) (right : Option MerkleTree)

/-- Field `hash` of the `MerkleTree` struct. -/
def MerkleTree.hash : MerkleTree → Hash
  | .mk h _ _ => h

/-- Field `left` of the `MerkleTree` struct. -/
def MerkleTree.left : MerkleTree → Option MerkleTree
  | .mk _ l _ => l

/-- Field `right` of the `MerkleTree` struct. -/
def MerkleTree.right : MerkleTree → Option MerkleTree
  | .mk _ _ r => r

/-- Rust `struct Proof` (merkel.rs lines 22-27): the ordered list of
(direction, sibling hash) pairs; the borrowed `&Hash` entries are embedded as
owned copies of the hashes. -/
structure Proof where
  hashes : List (HashDirection × Hash)
deriving DecidableEq, Repr

/-- Rust `MerkleTree::new_leaf` (merkel.rs lines 30-36). -/
def MerkleTree.new_leaf (data : Data) : MerkleTree :=
  .mk (hash_data data) none none

/-- Rust `MerkleTree::new_parent` (merkel.rs lines 38-45). -/
def MerkleTree.new_parent (left right : MerkleTree) : MerkleTree :=
  .mk (hash_concat left.hash right.hash) (some left) (some right)

/-- Rust `MerkleTree::root` (merkel.rs lines 48-50): returns (a clone of) the
root node's hash. -/
def MerkleTree.root (t : MerkleTree) : Hash := t.hash

/-- One pass of the `for chunk in nodes.chunks(2)` loop body of `construct`
(merkel.rs lines 57-64): consecutive pairs become parents; a trailing chunk of
one node is paired with itself. -/
def constructLevel : List MerkleTree → List MerkleTree
  | [] => []
  | [a] => [MerkleTree.new_parent a a]
  | a :: b :: rest => MerkleTree.new_parent a b :: constructLevel rest

/-- The `while nodes.len() > 1` loop of `construct` (merkel.rs lines 56-66),
embedded with explicit fuel: each iteration with more than one node replaces
the level by `constructLevel` of it. Every such iteration strictly shrinks the
list, so any fuel at least `log2` of the initial length is enough;
`construct` passes the input length, which is sufficient
(`constructLoop_singleton`). -/
def constructLoop : Nat → List MerkleTree → List MerkleTree
  | 0, nodes => nodes
  | fuel + 1, nodes =>
    if 1 < nodes.length then constructLoop fuel (constructLevel nodes) else nodes

/-- Rust `MerkleTree::construct` (merkel.rs lines 53-68): map the input blocks
to leaves, collapse levels while more than one node remains, and take the first
remaining node via `nodes.remove(0)`. On an empty input the node list stays
empty and `remove(0)` panics; the panic is embedded as the `none` result of
`head?`. -/
def MerkleTree.construct (input : List Data) : Option MerkleTree :=
  (constructLoop input.length (input.map MerkleTree.new_leaf)).head?

/-- Rust `MerkleTree::verify` (merkel.rs lines 72-75): rebuild a tree from the
input and compare its root to the given hash. The panic of `construct` on an
empty input propagates (as `none`). -/
def MerkleTree.verify (input : List Data) (root_hash : Hash) : Option Bool :=
  (MerkleTree.construct input).map (fun tree => tree.root == root_hash)

/-- The `for (direction, proof_hash) in &proof.hashes` loop of `verify_proof`
(merkel.rs lines 81-86): re-hash the running hash with each stored sibling,
placing the sibling on the recorded side. -/
def verifyLoop : Hash → List (HashDirection × Hash) → Hash
  | hash, [] => hash
  | hash, (direction, proof_hash) :: rest =>
    verifyLoop
      (match direction with
        | HashDirection.Left => hash_concat proof_hash hash
        | HashDirection.Right => hash_concat hash proof_hash)
      rest

/-- Rust `MerkleTree::verify_proof` (merkel.rs lines 78-88): fold the proof
entries over `hash_data data` and compare the result with `root_hash`. -/
def MerkleTree.verify_proof (data : Data) (proof : Proof) (root_hash : Hash) : Bool :=
  verifyLoop (hash_data data) proof.hashes == root_hash

/-- Rust `MerkleTree::find_proof` (merkel.rs lines 100-120). The Rust function
returns a `bool` and pushes `(direction, sibling hash)` entries onto the shared
accumulator as the recursion unwinds; the embedding returns the pushed entries
(`some entries` for `true`, `none` for `false`). The four cases split the two
`Option` children of the node. When a match is found in the left child the code
pushes `self.right.as_ref().unwrap()`, which panics if `right` is `None`
(symmetrically for the other side); the panic is embedded as `.error ()`. -/
def MerkleTree.find_proof : MerkleTree → Data → Except Unit (Option (List (HashDirection × Hash)))
  | .mk h none none, data =>
    if h == hash_data data then .ok (some []) else .ok none
  | .mk h (some l) (some r), data =>
    if h == hash_data data then .ok (some []) else
      match l.find_proof data with
      | .error e => .error e
      | .ok (some path) => .ok (some (path ++ [(HashDirection.Right, r.hash)]))
      | .ok none =>
        match r.find_proof data with
        | .error e => .error e
        | .ok (some path) => .ok (some (path ++ [(HashDirection.Left, l.hash)]))
        | .ok none => .ok none
  | .mk h (some l) none, data =>
    if h == hash_data data then .ok (some []) else
      match l.find_proof data with
      | .error e => .error e
      | .ok (some _) => .error ()
      | .ok none => .ok none
  | .mk h none (some r), data =>
    if h == hash_data data then .ok (some []) else
      match r.find_proof data with
      | .error e => .error e
      | .ok (some _) => .error ()
      | .ok none => .ok none

/-- Rust `MerkleTree::prove` (merkel.rs lines 91-98): wrap the entries
collected by `find_proof` in a `Proof`, or return `none` when nothing was
found; a panic inside `find_proof` propagates. -/
def MerkleTree.prove (t : MerkleTree) (data : Data) : Except Unit (Option Proof) :=
  match t.find_proof data with
  | .error e => .error e
  | .ok (some hashes) => .ok (some { hashes := hashes })
  | .ok none => .ok none

/-! ## `src/main.rs` -/

/-- Rust `fn hash2(data: &[u8]) -> Vec<u8>` (main.rs lines 78-87): hash the
data, then hash the first digest again (double SHA-256). -/
def hash2 (data : List Nat) : List Nat := sha256 (sha256 data)

/-- One pass of the `for i in (0..hash_list.len()).step_by(2)` loop body of
`merkle` (main.rs lines 59-72): combine consecutive pairs with `hash2` of the
byte concatenation; when `i + 1` is out of range the left element is also used
as the right one. -/
def merkleRound : List Hash → List Hash
  | [] => []
  | [left] => [hash2 (left ++ left)]
  | left :: right :: rest => hash2 (left ++ right) :: merkleRound rest

/-- The `while hash_list.len() > 1` loop of `merkle` (main.rs lines 54-74),
embedded with explicit fuel in the same way as `constructLoop`. -/
def merkleLoop : Nat → List Hash → List Hash
  | 0, hash_list => hash_list
  | fuel + 1, hash_list =>
    if 1 < hash_list.length then merkleLoop fuel (merkleRound hash_list) else hash_list

/-- Rust `fn merkle(mut hash_list: Vec<Vec<u8>>) -> Vec<u8>` (main.rs lines
52-76): fold the list of digests round by round until one remains and return
`hash_list[0]`; the indexing panics on an empty input, embedded as the `none`
result of `head?`. -/
def merkle (hash_list : List Hash) : Option Hash :=
  (merkleLoop hash_list.length hash_list).head?

/-! ## Specification-side definitions

These do not embed code; they phrase properties the claims talk about, for
comparison with the source translations above. -/

/-- Specification fold step of proof verification (spec section 4.5): replace
the running hash by `hash_concat sibling hash` when the stored direction is
`Left` and by `hash_concat hash sibling` when it is `Right`. -/
def verifyStep (hash : Hash) (entry : HashDirection × Hash) : Hash :=
  match entry.1 with
  | HashDirection.Left => hash_concat entry.2 hash
  | HashDirection.Right => hash_concat hash entry.2

/-- Does some node of the tree (root, internal, or leaf) carry the given
digest? -/
def hasNodeHash : MerkleTree → Hash → Bool
  | .mk h none none, target => h == target
  | .mk h (some l) none, target => h == target || hasNodeHash l target
  | .mk h none (some r), target => h == target || hasNodeHash r target
  | .mk h (some l) (some r), target => h == target || hasNodeHash l target || hasNodeHash r target

/-- Does some leaf (a node with no children) of the tree carry the given
digest? -/
def hasLeafHash : MerkleTree → Hash → Bool
  | .mk h none none, target => h == target
  | .mk _ (some l) none, target => hasLeafHash l target
  | .mk _ none (some r), target => hasLeafHash r target
  | .mk _ (some l) (some r), target => hasLeafHash l target || hasLeafHash r target

/-- Structural invariant of constructed trees (spec section 3): every node has
either no children (a leaf) or exactly two, and an internal node's digest is
the digest of its children's concatenated digests. -/
def WellFormed : MerkleTree → Prop
  | .mk _ none none => True
  | .mk h (some l) (some r) => h = hash_concat l.hash r.hash ∧ WellFormed l ∧ WellFormed r
  | .mk _ (some _) none => False
  | .mk _ none (some _) => False

/-- One round of the flat reducer as the spec words it (section 4.3): pair
consecutive digests, pairing the last with itself when the count is odd, and
replace each pair by the double hash of the concatenation. -/
def merkleRoundSpec : List Hash → List Hash
  | [] => []
  | [a] => [hash_data (hash_data (a ++ a))]
  | a :: b :: rest => hash_data (hash_data (a ++ b)) :: merkleRoundSpec rest

/-- Length of a reducer round: consecutive pairs, so the rounded-up half. -/
theorem merkleRoundSpec_length : ∀ l : List Hash, (merkleRoundSpec l).length = (l.length + 1) / 2
  | [] => rfl
  | [_] => by simp [merkleRoundSpec]
  | _ :: _ :: rest => by
    simp only [merkleRoundSpec, List.length_cons, merkleRoundSpec_length rest]
    omega

/-- The flat root reducer as the spec words it (section 4.3): repeat rounds
while more than one digest remains; a one-element input is returned
unchanged. -/
def merkleSpec : List Hash → Hash
  | [] => []
  | [a] => a
  | a :: b :: rest => merkleSpec (merkleRoundSpec (a :: b :: rest))
termination_by l => l.length
decreasing_by
  simp only [merkleRoundSpec, List.length_cons, merkleRoundSpec_length]
  omega

/-! ## Helper lemmas -/

/-- A nonempty list of length at most one is a singleton. -/
theorem singleton_of_short {α : Type} : ∀ (l : List α), l ≠ [] → ¬ 1 < l.length → ∃ a, l = [a]
  | [], hne, _ => absurd rfl hne
  | [a], _, _ => ⟨a, rfl⟩
  | _ :: _ :: _, _, hlen => by simp only [List.length_cons] at hlen; omega

/-- One construction round halves the node count, rounding up. -/
theorem constructLevel_length : ∀ l : List MerkleTree, (constructLevel l).length = (l.length + 1) / 2
  | [] => rfl
  | [_] => by simp [constructLevel]
  | _ :: _ :: rest => by
    simp only [constructLevel, List.length_cons, constructLevel_length rest]
    omega

/-- One construction round of a nonempty level is nonempty. -/
theorem constructLevel_ne_nil : ∀ l : List MerkleTree, l ≠ [] → constructLevel l ≠ []
  | [], h => absurd rfl h
  | [_], _ => by simp [constructLevel]
  | _ :: _ :: _, _ => by simp [constructLevel]

/-- With fuel at least `log2` of the node count (here: any fuel whose power of
two bounds the count), the construction loop collapses a nonempty level list to
exactly one node. -/
theorem constructLoop_singleton : ∀ (fuel : Nat) (nodes : List MerkleTree), nodes ≠ [] →
    nodes.length ≤ 2 ^ fuel → ∃ t, constructLoop fuel nodes = [t]
  | 0, nodes, hne, hlen => by
    obtain ⟨a, ha⟩ := singleton_of_short nodes hne (by simp only [pow_zero] at hlen; omega)
    exact ⟨a, by rw [ha]; rfl⟩
  | fuel + 1, nodes, hne, hlen => by
    simp only [constructLoop]
    by_cases h1 : 1 < nodes.length
    · rw [if_pos h1]
      apply constructLoop_singleton fuel (constructLevel nodes) (constructLevel_ne_nil nodes hne)
      have hp : nodes.length ≤ 2 ^ fuel * 2 := by rw [← pow_succ]; exact hlen
      rw [constructLevel_length]
      omega
    · rw [if_neg h1]
      obtain ⟨a, ha⟩ := singleton_of_short nodes hne h1
      exact ⟨a, by rw [ha]⟩

/-- Leaves are well-formed. -/
theorem wellFormed_new_leaf (data : Data) : WellFormed (MerkleTree.new_leaf data) := by
  simp [MerkleTree.new_leaf, WellFormed]

/-- Parents of well-formed children are well-formed. -/
theorem wellFormed_new_parent {l r : MerkleTree} (hl : WellFormed l) (hr : WellFormed r) :
    WellFormed (MerkleTree.new_parent l r) := by
  simp only [MerkleTree.new_parent, WellFormed]
  exact ⟨trivial, hl, hr⟩

/-- One construction round preserves well-formedness of every node. -/
theorem constructLevel_wellFormed : ∀ l : List MerkleTree, (∀ t ∈ l, WellFormed t) →
    ∀ t ∈ constructLevel l, WellFormed t
  | [], _, t, ht => by simp [constructLevel] at ht
  | [a], h, t, ht => by
    simp only [constructLevel, List.mem_singleton] at ht
    subst ht
    exact wellFormed_new_parent (h a (by simp)) (h a (by simp))
  | a :: b :: rest, h, t, ht => by
    simp only [constructLevel, List.mem_cons] at ht
    rcases ht with ht | ht
    · subst ht
      exact wellFormed_new_parent (h a (by simp)) (h b (by simp))
    · exact constructLevel_wellFormed rest (fun u hu => h u (by simp [hu])) t ht

/-- The construction loop preserves well-formedness of every node. -/
theorem constructLoop_wellFormed : ∀ (fuel : Nat) (nodes : List MerkleTree),
    (∀ t ∈ nodes, WellFormed t) → ∀ t ∈ constructLoop fuel nodes, WellFormed t
  | 0, nodes, h, t, ht => h t ht
  | fuel + 1, nodes, h, t, ht => by
    simp only [constructLoop] at ht
    by_cases h1 : 1 < nodes.length
    · rw [if_pos h1] at ht
      exact constructLoop_wellFormed fuel (constructLevel nodes)
        (constructLevel_wellFormed nodes h) t ht
    · rw [if_neg h1] at ht
      exact h t ht

/-- Every tree `construct` returns is well-formed. -/
theorem construct_wellFormed {input : List Data} {t : MerkleTree}
    (hc : MerkleTree.construct input = some t) : WellFormed t := by
  unfold MerkleTree.construct at hc
  have hmem : t ∈ constructLoop input.length (input.map MerkleTree.new_leaf) := by
    cases hcl : constructLoop input.length (input.map MerkleTree.new_leaf) with
    | nil => simp [hcl] at hc
    | cons a tl =>
      simp only [hcl, List.head?_cons, Option.some.injEq] at hc
      rw [← hc]
      exact List.mem_cons_self a tl
  refine constructLoop_wellFormed _ _ ?_ t hmem
  intro u hu
  obtain ⟨d, _, hd⟩ := List.mem_map.mp hu
  rw [← hd]
  exact wellFormed_new_leaf d

/-- On nonempty input, `construct` succeeds (the panic of `remove(0)` is
unreachable) and returns a well-formed tree. -/
theorem construct_some {input : List Data} (hne : input ≠ []) :
    ∃ t, MerkleTree.construct input = some t := by
  unfold MerkleTree.construct
  obtain ⟨t, ht⟩ := constructLoop_singleton input.length (input.map MerkleTree.new_leaf)
    (by simpa using hne)
    (by simp only [List.length_map]; exact Nat.le_of_lt (Nat.lt_two_pow input.length))
  exact ⟨t, by rw [ht]; rfl⟩

/-- The verification loop is the left fold of `verifyStep`. -/
theorem verifyLoop_eq_foldl : ∀ (entries : List (HashDirection × Hash)) (hash : Hash),
    verifyLoop hash entries = entries.foldl verifyStep hash
  | [], _ => rfl
  | (dir, ph) :: rest, hash => by
    cases dir <;> simp [verifyLoop, verifyStep, verifyLoop_eq_foldl rest]

/-- Soundness of the collected proof path: on a well-formed tree, whenever
`find_proof` reports a match, folding the collected entries over the searched
digest reproduces the hash of the node the search started at. -/
theorem find_proof_sound : ∀ (t : MerkleTree) (data : Data)
    (path : List (HashDirection × Hash)), WellFormed t →
    t.find_proof data = .ok (some path) →
    path.foldl verifyStep (hash_data data) = t.hash
  | .mk h none none, data, path, _, hfp => by
    simp only [MerkleTree.find_proof] at hfp
    split at hfp
    · rename_i hbeq
      injection hfp with hfp
      injection hfp with hfp
      subst hfp
      simp only [List.foldl_nil, MerkleTree.hash]
      exact (beq_iff_eq.mp hbeq).symm
    · exact absurd hfp (by simp)
  | .mk h (some l) (some r), data, path, hwf, hfp => by
    simp only [WellFormed] at hwf
    obtain ⟨hh, hl, hr⟩ := hwf
    simp only [MerkleTree.find_proof] at hfp
    split at hfp
    · rename_i hbeq
      injection hfp with hfp
      injection hfp with hfp
      subst hfp
      simp only [List.foldl_nil, MerkleTree.hash]
      exact (beq_iff_eq.mp hbeq).symm
    · split at hfp
      · exact absurd hfp (by simp)
      · rename_i p' heq
        injection hfp with hfp
        injection hfp with hfp
        subst hfp
        have ih := find_proof_sound l data p' hl heq
        simp only [List.foldl_append, List.foldl_cons, List.foldl_nil, ih, verifyStep,
          MerkleTree.hash, hh]
      · split at hfp
        · exact absurd hfp (by simp)
        · rename_i p' heq
          injection hfp with hfp
          injection hfp with hfp
          subst hfp
          have ih := find_proof_sound r data p' hr heq
          simp only [List.foldl_append, List.foldl_cons, List.foldl_nil, ih, verifyStep,
            MerkleTree.hash, hh]
        · exact absurd hfp (by simp)
  | .mk _ (some _) none, _, _, hwf, _ => by simp only [WellFormed] at hwf
  | .mk _ none (some _), _, _, hwf, _ => by simp only [WellFormed] at hwf

/-- Completeness and panic-freedom of the search on well-formed trees: the
search never reaches an `unwrap` panic, and it reports a match exactly when
some node of the tree carries the searched digest. -/
theorem find_proof_spec : ∀ (t : MerkleTree), WellFormed t → ∀ data : Data,
    ∃ r, t.find_proof data = .ok r ∧ r.isSome = hasNodeHash t (hash_data data)
  | .mk h none none, _, data => by
    by_cases hbeq : (h == hash_data data) = true
    · exact ⟨some [], by simp only [MerkleTree.find_proof]; rw [if_pos hbeq],
        by simp [hasNodeHash, hbeq]⟩
    · exact ⟨none, by simp only [MerkleTree.find_proof]; rw [if_neg hbeq],
        by simp only [hasNodeHash, Option.isSome_none, Bool.not_eq_true] at hbeq ⊢
           exact hbeq.symm⟩
  | .mk h (some l) (some r), hwf, data => by
    simp only [WellFormed] at hwf
    obtain ⟨_, hl, hr⟩ := hwf
    by_cases hbeq : (h == hash_data data) = true
    · exact ⟨some [], by simp only [MerkleTree.find_proof]; rw [if_pos hbeq],
        by simp [hasNodeHash, hbeq]⟩
    · rw [Bool.not_eq_true] at hbeq
      obtain ⟨rl, hleq, hlsome⟩ := find_proof_spec l hl data
      cases rl with
      | some pl =>
        refine ⟨some (pl ++ [(HashDirection.Right, r.hash)]), ?_, ?_⟩
        · simp only [MerkleTree.find_proof]
          rw [if_neg (by simp [hbeq]), hleq]
        · simp only [Option.isSome_some] at hlsome ⊢
          simp [hasNodeHash, ← hlsome]
      | none =>
        obtain ⟨rr, hreq, hrsome⟩ := find_proof_spec r hr data
        cases rr with
        | some pr =>
          refine ⟨some (pr ++ [(HashDirection.Left, l.hash)]), ?_, ?_⟩
          · simp only [MerkleTree.find_proof]
            rw [if_neg (by simp [hbeq]), hleq, hreq]
          · simp only [Option.isSome_some] at hrsome ⊢
            simp [hasNodeHash, ← hrsome]
        | none =>
          refine ⟨none, ?_, ?_⟩
          · simp only [MerkleTree.find_proof]
            rw [if_neg (by simp [hbeq]), hleq, hreq]
          · simp only [Option.isSome_none] at hlsome hrsome ⊢
            simp [hasNodeHash, hbeq, ← hlsome, ← hrsome]
  | .mk _ (some _) none, hwf, _ => by simp only [WellFormed] at hwf
  | .mk _ none (some _), hwf, _ => by simp only [WellFormed] at hwf

/-- Shape of any successful search result: either the searched digest already
matched the hash of the node itself (empty path), or at least one sibling entry
was pushed. No recursion is needed: every non-root match appends an entry. -/
theorem find_proof_path_shape : ∀ (t : MerkleTree) (data : Data)
    (path : List (HashDirection × Hash)), t.find_proof data = .ok (some path) →
    (t.hash == hash_data data) = true ∨ path ≠ []
  | .mk h none none, data, path, hfp => by
    simp only [MerkleTree.find_proof] at hfp
    split at hfp
    · rename_i hbeq
      exact Or.inl hbeq
    · exact absurd hfp (by simp)
  | .mk h (some l) (some r), data, path, hfp => by
    simp only [MerkleTree.find_proof] at hfp
    split at hfp
    · rename_i hbeq
      exact Or.inl hbeq
    · refine Or.inr ?_
      split at hfp
      · exact absurd hfp (by simp)
      · injection hfp with hfp
        injection hfp with hfp
        subst hfp
        simp
      · split at hfp
        · exact absurd hfp (by simp)
        · injection hfp with hfp
          injection hfp with hfp
          subst hfp
          simp
        · exact absurd hfp (by simp)
  | .mk h (some l) none, data, path, hfp => by
    simp only [MerkleTree.find_proof] at hfp
    split at hfp
    · rename_i hbeq
      exact Or.inl hbeq
    · split at hfp <;> exact absurd hfp (by simp)
  | .mk h none (some r), data, path, hfp => by
    simp only [MerkleTree.find_proof] at hfp
    split at hfp
    · rename_i hbeq
      exact Or.inl hbeq
    · split at hfp <;> exact absurd hfp (by simp)

/-- On a level with an odd node count, the last node of the next level is the
last node of this level paired with itself. -/
theorem constructLevel_getLast_odd : ∀ (l : List MerkleTree) (x : MerkleTree),
    l.length % 2 = 1 → l.getLast? = some x →
    (constructLevel l).getLast? = some (MerkleTree.new_parent x x)
  | [], _, hodd, _ => by simp at hodd
  | [a], x, _, hlast => by
    simp only [List.getLast?_singleton, Option.some.injEq] at hlast
    subst hlast
    rfl
  | a :: b :: rest, x, hodd, hlast => by
    cases rest with
    | nil => simp at hodd
    | cons c rest2 =>
      rw [List.getLast?_cons_cons, List.getLast?_cons_cons] at hlast
      have hodd2 : (c :: rest2).length % 2 = 1 := by
        simp only [List.length_cons] at hodd ⊢
        omega
      have hrec := constructLevel_getLast_odd (c :: rest2) x hodd2 hlast
      show (MerkleTree.new_parent a b :: constructLevel (c :: rest2)).getLast? = _
      cases hcl : constructLevel (c :: rest2) with
      | nil => exact absurd hcl (constructLevel_ne_nil _ (by simp))
      | cons z zs =>
        rw [hcl] at hrec
        rw [List.getLast?_cons_cons]
        exact hrec

/-- Each flat-reducer round of the code computes exactly the round the spec
describes: `hash2` of a concatenation is the double application of
`hash_data`. -/
theorem merkleRound_eq_spec : ∀ l : List Hash, merkleRound l = merkleRoundSpec l
  | [] => rfl
  | [_] => rfl
  | a :: b :: rest => by
    have h2 : hash2 (a ++ b) = hash_data (hash_data (a ++ b)) := rfl
    simp only [merkleRound, merkleRoundSpec, merkleRound_eq_spec rest, h2]

/-- The spec reducer on a list of two or more digests recurses through one
round. -/
theorem merkleSpec_step (a b : Hash) (rest : List Hash) :
    merkleSpec (a :: b :: rest) = merkleSpec (merkleRoundSpec (a :: b :: rest)) := by
  simp only [merkleSpec]

/-- A reducer round of a nonempty list is nonempty. -/
theorem merkleRoundSpec_ne_nil (l : List Hash) (hne : l ≠ []) : merkleRoundSpec l ≠ [] := by
  intro hnil
  have hlen := merkleRoundSpec_length l
  rw [hnil] at hlen
  simp only [List.length_nil] at hlen
  cases l with
  | nil => exact hne rfl
  | cons a rest => simp only [List.length_cons] at hlen; omega

/-- With fuel bounding the digest count by a power of two, the reducer loop of
the code collapses a nonempty digest list to exactly the digest described by
the spec's recursive reducer. -/
theorem merkleLoop_singleton : ∀ (fuel : Nat) (l : List Hash), l ≠ [] →
    l.length ≤ 2 ^ fuel → merkleLoop fuel l = [merkleSpec l]
  | 0, l, hne, hlen => by
    obtain ⟨a, ha⟩ := singleton_of_short l hne (by simp only [pow_zero] at hlen; omega)
    subst ha
    simp [merkleLoop, merkleSpec]
  | fuel + 1, l, hne, hlen => by
    simp only [merkleLoop]
    by_cases h1 : 1 < l.length
    · rw [if_pos h1]
      have hp : l.length ≤ 2 ^ fuel * 2 := by rw [← pow_succ]; exact hlen
      have hlen2 : (merkleRound l).length ≤ 2 ^ fuel := by
        rw [merkleRound_eq_spec, merkleRoundSpec_length]
        omega
      have hne2 : merkleRound l ≠ [] := by
        rw [merkleRound_eq_spec]
        exact merkleRoundSpec_ne_nil l hne
      rw [merkleLoop_singleton fuel (merkleRound l) hne2 hlen2]
      match l, h1 with
      | a :: b :: rest, _ =>
        rw [merkleRound_eq_spec, ← merkleSpec_step]
    · rw [if_neg h1]
      obtain ⟨a, ha⟩ := singleton_of_short l hne h1
      subst ha
      simp [merkleSpec]

/-- Does `prove` return a proof (as opposed to reporting absence or
panicking)? Used to state the corrected form of the membership claim. -/
def proveReturnsSome (t : MerkleTree) (data : Data) : Bool :=
  match t.prove data with
  | .ok (some _) => true
  | _ => false

/-- Successful `prove` results expose the collected `find_proof` entries. -/
theorem prove_ok_some {t : MerkleTree} {data : Data} {p : Proof}
    (h : t.prove data = .ok (some p)) : t.find_proof data = .ok (some p.hashes) := by
  unfold MerkleTree.prove at h
  cases hfp : t.find_proof data with
  | error e => rw [hfp] at h; exact absurd h (by simp)
  | ok r =>
    cases r with
    | none => rw [hfp] at h; exact absurd h (by simp)
    | some hs =>
      rw [hfp] at h
      simp only [Except.ok.injEq, Option.some.injEq] at h
      subst h
      rfl

/-! ## Claims -/

/-- Claim C1 (proof round-trip soundness): whenever a tree was constructed from
a block sequence and `prove` returns a proof for a data block, verifying that
proof against the tree's root succeeds. -/
theorem proof_roundtrip_sound (blocks : List Data) (t : MerkleTree) (data : Data) (p : Proof)
    (hc : MerkleTree.construct blocks = some t)
    (hp : t.prove data = .ok (some p)) :
    MerkleTree.verify_proof data p t.root = true := by
  have hwf := construct_wellFormed hc
  have hfp := prove_ok_some hp
  have hsound := find_proof_sound t data p.hashes hwf hfp
  unfold MerkleTree.verify_proof
  rw [verifyLoop_eq_foldl, hsound]
  exact beq_self_eq_true t.hash

set_option maxRecDepth 1000000 in
/-- Claim C1 witness: the round trip on the concrete two-block tree over the
blocks `[0]` and `[1]`, proving membership of `[0]`. -/
theorem proof_roundtrip_sound_witness :
    MerkleTree.verify_proof [0]
      { hashes := [(HashDirection.Right, (MerkleTree.new_leaf [1]).hash)] }
      (MerkleTree.new_parent (MerkleTree.new_leaf [0]) (MerkleTree.new_leaf [1])).root = true :=
  proof_roundtrip_sound [[0], [1]]
    (MerkleTree.new_parent (MerkleTree.new_leaf [0]) (MerkleTree.new_leaf [1])) [0]
    { hashes := [(HashDirection.Right, (MerkleTree.new_leaf [1]).hash)] }
    rfl (by rfl)

/-- Claim C2: `verify_proof` is exactly the stated fold: starting from
`hash_data data` it folds the entries in stored order with the
direction-dependent `hash_concat`, and accepts exactly when the final hash
equals the expected root. -/
theorem verify_proof_is_fold (data : Data) (proof : Proof) (root_hash : Hash) :
    MerkleTree.verify_proof data proof root_hash =
      (proof.hashes.foldl verifyStep (hash_data data) == root_hash) ∧
    (MerkleTree.verify_proof data proof root_hash = true ↔
      proof.hashes.foldl verifyStep (hash_data data) = root_hash) := by
  constructor
  · unfold MerkleTree.verify_proof
    rw [verifyLoop_eq_foldl]
  · unfold MerkleTree.verify_proof
    rw [verifyLoop_eq_foldl]
    exact beq_iff_eq

/-- Claim C3 (odd-count duplication at every level): the construction loop
applies `constructLevel` at every round while more than one node remains;
`constructLevel` pairs consecutive nodes, and on a level of odd node count the
last node becomes the parent of itself, with digest
`hash_concat node.hash node.hash`. -/
theorem construct_odd_duplication (nodes : List MerkleTree) (fuel : Nat)
    (x a b : MerkleTree) (rest : List MerkleTree)
    (hlen : 1 < nodes.length) (hodd : nodes.length % 2 = 1)
    (hlast : nodes.getLast? = some x) :
    constructLoop (fuel + 1) nodes = constructLoop fuel (constructLevel nodes) ∧
    constructLevel (a :: b :: rest) = MerkleTree.new_parent a b :: constructLevel rest ∧
    (constructLevel nodes).getLast? = some (MerkleTree.new_parent x x) ∧
    (MerkleTree.new_parent x x).hash = hash_concat x.hash x.hash := by
  refine ⟨?_, rfl, constructLevel_getLast_odd nodes x hodd hlast, rfl⟩
  simp only [constructLoop]
  rw [if_pos hlen]

/-- Claim C3 witness: a three-leaf level (blocks `[0]`, `[1]`, `[2]`): the loop
recurses through one round, the round pairs the first two leaves, and the
unpaired third leaf is duplicated into its own parent. -/
theorem construct_odd_duplication_witness :
    constructLoop 2 [MerkleTree.new_leaf [0], MerkleTree.new_leaf [1], MerkleTree.new_leaf [2]] =
      constructLoop 1
        (constructLevel [MerkleTree.new_leaf [0], MerkleTree.new_leaf [1],
          MerkleTree.new_leaf [2]]) ∧
    constructLevel [MerkleTree.new_leaf [0], MerkleTree.new_leaf [1], MerkleTree.new_leaf [2]] =
      MerkleTree.new_parent (MerkleTree.new_leaf [0]) (MerkleTree.new_leaf [1]) ::
        constructLevel [MerkleTree.new_leaf [2]] ∧
    (constructLevel [MerkleTree.new_leaf [0], MerkleTree.new_leaf [1],
        MerkleTree.new_leaf [2]]).getLast? =
      some (MerkleTree.new_parent (MerkleTree.new_leaf [2]) (MerkleTree.new_leaf [2])) ∧
    (MerkleTree.new_parent (MerkleTree.new_leaf [2]) (MerkleTree.new_leaf [2])).hash =
      hash_concat (MerkleTree.new_leaf [2]).hash (MerkleTree.new_leaf [2]).hash :=
  construct_odd_duplication
    [MerkleTree.new_leaf [0], MerkleTree.new_leaf [1], MerkleTree.new_leaf [2]] 1
    (MerkleTree.new_leaf [2]) (MerkleTree.new_leaf [0]) (MerkleTree.new_leaf [1])
    [MerkleTree.new_leaf [2]] (by decide) (by decide) rfl

/-- Claim C5 counterexample: on zero blocks, `construct` does not return an
explicit failure to the caller; it reaches `nodes.remove(0)` on the empty node
vector and panics (the `none` outcome of the embedding), and `verify` on an
empty block sequence propagates that same panic. -/
theorem construct_empty_cex :
    MerkleTree.construct [] = none ∧ MerkleTree.verify [] [] = none :=
  ⟨rfl, rfl⟩

/-- Claim C5 (amended): constructing from zero blocks panics at the final
`remove(0)` (embedded as the `none` outcome) instead of returning an explicit
failure result, and `verify` on an empty block sequence panics in the same way
for every candidate root hash. -/
theorem construct_empty_panics (root_hash : Hash) :
    MerkleTree.construct [] = none ∧ MerkleTree.verify [] root_hash = none :=
  ⟨rfl, rfl⟩

/-- Claim C6 (whole-dataset verify is reconstruct-and-compare): when a tree is
constructed from the blocks, `verify` returns exactly the comparison of that
tree's root with the candidate hash, and accepts exactly on equality. (On
nonempty blocks construction always succeeds, `construct_some`.) -/
theorem verify_reconstructs_and_compares (blocks : List Data) (root_hash : Hash)
    (t : MerkleTree) (hc : MerkleTree.construct blocks = some t) :
    MerkleTree.verify blocks root_hash = some (t.root == root_hash) ∧
    (MerkleTree.verify blocks root_hash = some true ↔ t.root = root_hash) := by
  constructor
  · unfold MerkleTree.verify
    rw [hc]
    rfl
  · unfold MerkleTree.verify
    rw [hc]
    simp [beq_iff_eq]

/-- Claim C6 witness: verifying the singleton block sequence `[[0]]` against
the root of its own tree. -/
theorem verify_reconstructs_and_compares_witness :
    MerkleTree.verify [[0]] (hash_data [0]) =
      some ((MerkleTree.new_leaf [0]).root == hash_data [0]) :=
  (verify_reconstructs_and_compares [[0]] (hash_data [0]) (MerkleTree.new_leaf [0]) rfl).1

/-- Claim C7 (single-leaf identity): constructing from a one-element sequence
yields exactly the single leaf node, whose root is `hash_data` of the block and
which has no children. -/
theorem construct_single_leaf_identity (b : Data) :
    MerkleTree.construct [b] = some (MerkleTree.new_leaf b) ∧
    (MerkleTree.new_leaf b).root = hash_data b ∧
    (MerkleTree.new_leaf b).left = none ∧ (MerkleTree.new_leaf b).right = none :=
  ⟨rfl, rfl, rfl, rfl⟩

/-- A node whose own hash equals the searched digest yields a match with no
entries, before any descent — for every node shape. -/
theorem find_proof_self (t : MerkleTree) (data : Data) (hhash : t.hash = hash_data data) :
    t.find_proof data = .ok (some []) := by
  cases t with
  | mk h lo ro =>
    simp only [MerkleTree.hash] at hhash
    subst hhash
    cases lo <;> cases ro <;>
    · simp only [MerkleTree.find_proof]
      rw [if_pos (beq_self_eq_true _)]

/-- Claim C9 (flat root reducer rule): the `merkle` function of `main.rs`
computes exactly the reducer the spec describes — repeatedly pair consecutive
digests (the last with itself on an odd count), replace each pair by the double
hash `hash_data (hash_data (left ++ right))`, return the sole survivor, and
return a one-element input unchanged (`merkleSpec [a] = a` by definition). -/
theorem merkle_flat_reducer_spec (l : List Hash) (hne : l ≠ []) :
    merkle l = some (merkleSpec l) := by
  unfold merkle
  rw [merkleLoop_singleton l.length l hne (Nat.le_of_lt (Nat.lt_two_pow l.length))]
  rfl

/-- Claim C9 witness: the reducer applied to the singleton digest list. -/
theorem merkle_flat_reducer_spec_witness :
    merkle [[0]] = some (merkleSpec [[0]]) :=
  merkle_flat_reducer_spec [[0]] (by decide)

/-- Claim C10 (empty proofs accepted exactly at the data's own hash):
a proof with no entries verifies exactly when `hash_data data` equals the
candidate root; `prove` on a single-block tree returns exactly such an empty
proof; and on any node whose own hash equals `hash_data data` — root and
internal nodes included — the search succeeds immediately with the empty
proof, before descending. -/
theorem empty_proof_accepts_iff_root (data : Data) (root_hash : Hash) (b : Data)
    (t : MerkleTree) (hhash : t.hash = hash_data data) :
    (MerkleTree.verify_proof data { hashes := [] } root_hash =
      (hash_data data == root_hash)) ∧
    (MerkleTree.verify_proof data { hashes := [] } root_hash = true ↔
      hash_data data = root_hash) ∧
    MerkleTree.construct [b] = some (MerkleTree.new_leaf b) ∧
    (MerkleTree.new_leaf b).prove b = .ok (some { hashes := [] }) ∧
    t.prove data = .ok (some { hashes := [] }) := by
  refine ⟨rfl, beq_iff_eq, rfl, ?_, ?_⟩
  · unfold MerkleTree.prove
    rw [find_proof_self (MerkleTree.new_leaf b) b rfl]
  · unfold MerkleTree.prove
    rw [find_proof_self t data hhash]

/-- Claim C10 witness: the single-block tree over `[0]`, whose root hash is the
data's own hash. -/
theorem empty_proof_accepts_iff_root_witness :
    (MerkleTree.verify_proof [0] { hashes := [] } (hash_data [0]) =
      (hash_data [0] == hash_data [0])) ∧
    MerkleTree.construct [[0]] = some (MerkleTree.new_leaf [0]) ∧
    (MerkleTree.new_leaf [0]).prove [0] = .ok (some { hashes := [] }) ∧
    (MerkleTree.new_leaf [0]).prove [0] = .ok (some { hashes := [] }) :=
  ⟨(empty_proof_accepts_iff_root [0] (hash_data [0]) [0] (MerkleTree.new_leaf [0]) rfl).1,
   (empty_proof_accepts_iff_root [0] (hash_data [0]) [0] (MerkleTree.new_leaf [0]) rfl).2.2.1,
   (empty_proof_accepts_iff_root [0] (hash_data [0]) [0] (MerkleTree.new_leaf [0]) rfl).2.2.2.1,
   (empty_proof_accepts_iff_root [0] (hash_data [0]) [0] (MerkleTree.new_leaf [0]) rfl).2.2.2.2⟩

set_option maxRecDepth 1000000 in
/-- Validation of the embedded hash primitive against the repository's own
test data: the digest of the single byte `0x00` recorded in the comments of
`test_constructions`. -/
theorem sha256_golden_leaf :
    hash_data [0] = [0x6e, 0x34, 0x0b, 0x9c, 0xff, 0xb3, 0x7a, 0x98, 0x9c, 0xa5, 0x44, 0xe6,
      0xbb, 0x78, 0x0a, 0x2c, 0x78, 0x90, 0x1d, 0x3f, 0xb3, 0x37, 0x38, 0x76, 0x85, 0x11,
      0xa3, 0x06, 0x17, 0xaf, 0xa0, 0x1d] := by decide

set_option maxRecDepth 1000000 in
/-- Claim C4 counterexample: `prove` can return a proof although no leaf
matches. On the tree built from the blocks `[2]` and `[3]`, take as data the
64-byte concatenation of the two leaf digests: its hash is exactly the root
digest, so the search succeeds at the root with an empty proof, while no leaf
carries that digest. -/
theorem prove_matches_internal_cex :
    MerkleTree.construct [[2], [3]] =
      some (MerkleTree.new_parent (MerkleTree.new_leaf [2]) (MerkleTree.new_leaf [3])) ∧
    (MerkleTree.new_parent (MerkleTree.new_leaf [2]) (MerkleTree.new_leaf [3])).prove
      (hash_data [2] ++ hash_data [3]) = .ok (some { hashes := [] }) ∧
    hasLeafHash (MerkleTree.new_parent (MerkleTree.new_leaf [2]) (MerkleTree.new_leaf [3]))
      (hash_data (hash_data [2] ++ hash_data [3])) = false :=
  ⟨rfl, by rfl, by decide⟩

/-- Claim C4 (amended): on every constructed tree, `prove` never panics; it
returns a proof exactly when some node of the tree — root and internal nodes
included, not only leaves — carries the digest `hash_data data` (still taking
the first match of the root-first, left-before-right search), and it returns
the `none` absence result when no node matches. -/
theorem prove_some_iff_node_hash (blocks : List Data) (t : MerkleTree) (data : Data)
    (hc : MerkleTree.construct blocks = some t) :
    proveReturnsSome t data = hasNodeHash t (hash_data data) ∧
    (hasNodeHash t (hash_data data) = false → t.prove data = .ok none) := by
  have hwf := construct_wellFormed hc
  obtain ⟨r, hr, hsome⟩ := find_proof_spec t hwf data
  cases r with
  | none =>
    have hpz : t.prove data = .ok none := by
      unfold MerkleTree.prove
      rw [hr]
    simp only [Option.isSome_none] at hsome
    constructor
    · unfold proveReturnsSome
      rw [hpz]
      exact hsome
    · intro _
      exact hpz
  | some hs =>
    have hpz : t.prove data = .ok (some { hashes := hs }) := by
      unfold MerkleTree.prove
      rw [hr]
    simp only [Option.isSome_some] at hsome
    constructor
    · unfold proveReturnsSome
      rw [hpz]
      exact hsome
    · intro hfalse
      rw [← hsome] at hfalse
      exact absurd hfalse (by simp)

/-- Claim C4 witness: membership of the block `[0]` in the two-block tree over
`[0]` and `[1]`. -/
theorem prove_some_iff_node_hash_witness :
    proveReturnsSome
      (MerkleTree.new_parent (MerkleTree.new_leaf [0]) (MerkleTree.new_leaf [1])) [0] =
    hasNodeHash (MerkleTree.new_parent (MerkleTree.new_leaf [0]) (MerkleTree.new_leaf [1]))
      (hash_data [0]) :=
  (prove_some_iff_node_hash [[0], [1]]
    (MerkleTree.new_parent (MerkleTree.new_leaf [0]) (MerkleTree.new_leaf [1])) [0] rfl).1

set_option maxRecDepth 1000000 in
/-- Claim C8 counterexample: a tree with two leaves for which `prove` returns a
proof with no entries. On the tree built from `[0]` and `[1]`, the data equal
to the concatenation of the two leaf digests hashes to the root digest itself,
so the returned proof is empty. -/
theorem proof_empty_collision_cex :
    2 ≤ ([[0], [1]] : List Data).length ∧
    MerkleTree.construct [[0], [1]] =
      some (MerkleTree.new_parent (MerkleTree.new_leaf [0]) (MerkleTree.new_leaf [1])) ∧
    (MerkleTree.new_parent (MerkleTree.new_leaf [0]) (MerkleTree.new_leaf [1])).prove
      (hash_data [0] ++ hash_data [1]) = .ok (some { hashes := [] }) :=
  ⟨by decide, rfl, by rfl⟩

/-- Claim C8 (amended): for a tree constructed from two or more blocks, every
proof that `prove` returns for data whose digest differs from the root digest
has at least one entry (the root-match case is exactly the one that yields the
empty proof). -/
theorem proof_nonempty_of_ne_root (blocks : List Data) (t : MerkleTree) (data : Data)
    (p : Proof) (_hlen : 2 ≤ blocks.length) (_hc : MerkleTree.construct blocks = some t)
    (hp : t.prove data = .ok (some p)) (hroot : hash_data data ≠ t.root) :
    p.hashes ≠ [] := by
  have hfp := prove_ok_some hp
  rcases find_proof_path_shape t data p.hashes hfp with hbeq | hne
  · exact absurd (beq_iff_eq.mp hbeq).symm hroot
  · exact hne

set_option maxRecDepth 1000000 in
/-- Claim C8 witness: the proof for the block `[0]` in the two-block tree over
`[0]` and `[1]` is nonempty. -/
theorem proof_nonempty_of_ne_root_witness :
    ({ hashes := [(HashDirection.Right, (MerkleTree.new_leaf [1]).hash)] } : Proof).hashes ≠
      [] :=
  proof_nonempty_of_ne_root [[0], [1]]
    (MerkleTree.new_parent (MerkleTree.new_leaf [0]) (MerkleTree.new_leaf [1])) [0]
    { hashes := [(HashDirection.Right, (MerkleTree.new_leaf [1]).hash)] }
    (by decide) rfl (by rfl) (by decide)
